import Mathlib

/-!
# fighterlyt/config: the layered configuration loader

A shallow embedding of `config.go`:

* `parse` / `Generate`: the reflective walk that registers one command-line
  flag per field of kind string, int or bool;
* `decode`, `readAndParse`, `LoadFile`: the global/local file merger;
* `LoadFromServer`: the remote fetcher.

Go state is passed explicitly.  The memory the caller's pointers refer to is a
heap `Nat → α` (address to record); the process-wide flag registry
(`flag.CommandLine`) is a `FlagSet`; a run of `Generate` yields the registry it
leaves and the panic that ended it, if one did; a Go `error` result is an
`Option GoError` (`none` is `nil`).

Behaviour of the libraries the code calls (`strings`, `reflect`, `flag`, `os`,
`github.com/pkg/errors`) is written down from their documentation, each
definition naming the library function it stands for.  The Unicode tables
behind `strings.ToLower` and `reflect`'s exported-name test are a parameter
`u : Runes`; every general theorem holds for all of them.
-/

set_option autoImplicit false

namespace Config

/-! ## Library: unicode and strings -/

/-- Package `unicode` as the code reaches it: `unicode.ToLower`, which
`strings.ToLower` applies to every character, and `unicode.IsUpper`, with
which `reflect` tells an exported name. -/
structure Runes where
  ToLower : Char → Char
  IsUpper : Char → Bool

/-- Go `strings.ToLower`: every character is mapped to its lower case. -/
def ToLower (u : Runes) (s : String) : String := ⟨s.data.map u.ToLower⟩

/-- Go `strings.Join([]string{a, b}, ".")`. -/
def Join (a b : String) : String := a ++ "." ++ b

/-! ## Library: reflect -/

/-- Go `reflect.StructField.IsExported`: the name starts with an upper-case letter. -/
def IsExported (u : Runes) (name : String) : Bool :=
  match name.data with
  | [] => false
  | c :: _ => u.IsUpper c

/-- The three kinds `parse` has a case for besides `reflect.Struct`. -/
inductive Kind where
  | String
  | Int
  | Bool
  deriving DecidableEq, Repr

/-- The value held by a field of kind `reflect.String`, `reflect.Int` or `reflect.Bool`. -/
inductive Leaf where
  | str (s : String)
  | int (n : Int)
  | bool (b : Bool)
  deriving DecidableEq, Repr

/-- The `reflect.Kind` of a leaf value. -/
def Leaf.kind : Leaf → Kind
  | .str _ => .String
  | .int _ => .Int
  | .bool _ => .Bool

/-- What `parse` reads of `value.Type().Field(i)`: the field name, and whether
the field is embedded (`Anonymous`), which decides how `reflect` marks an
unexported field read-only. -/
structure StructField where
  Name : String
  Anonymous : Bool
  deriving DecidableEq, Repr

/-- A struct value, as the sequence of its fields in declaration order.
`leaf f defined v rest`: a first field of kind string, int or bool holding `v`;
`defined` says that the field's type is a defined type (`type Level int`)
rather than `string`, `int` or `bool` itself.
`struct f inner rest`: a first field of kind `reflect.Struct`.
`other f rest`: a first field of any other kind (slice, map, pointer, float,
sized integer, ...), whose value the walk never looks at. -/
inductive Record where
  | done
  | leaf (f : StructField) (defined : Bool) (v : Leaf) (rest : Record)
  | struct (f : StructField) (inner : Record) (rest : Record)
  | other (f : StructField) (rest : Record)
  deriving DecidableEq, Repr

/-- Reading the field at an index path (`v.Field(i0).Field(i1)...`), when that
field is of kind string, int or bool. -/
def Record.get : Record → List Nat → Option Leaf
  | .done, _ => none
  | .leaf _ _ _ _, [] => none
  | .leaf _ _ v _, [0] => some v
  | .leaf _ _ _ _, 0 :: _ :: _ => none
  | .leaf _ _ _ rest, (i + 1) :: p => rest.get (i :: p)
  | .struct _ _ _, [] => none
  | .struct _ inner _, 0 :: p => inner.get p
  | .struct _ _ rest, (i + 1) :: p => rest.get (i :: p)
  | .other _ _, [] => none
  | .other _ _, 0 :: _ => none
  | .other _ rest, (i + 1) :: p => rest.get (i :: p)

/-- Storing through a pointer to the field at an index path (`*p = w`). -/
def Record.set : Record → List Nat → Leaf → Record
  | .done, _, _ => .done
  | .leaf f d v rest, [], _ => .leaf f d v rest
  | .leaf f d _ rest, [0], w => .leaf f d w rest
  | .leaf f d v rest, 0 :: _ :: _, _ => .leaf f d v rest
  | .leaf f d v rest, (i + 1) :: p, w => .leaf f d v (rest.set (i :: p) w)
  | .struct f inner rest, [], _ => .struct f inner rest
  | .struct f inner rest, 0 :: p, w => .struct f (inner.set p w) rest
  | .struct f inner rest, (i + 1) :: p, w => .struct f inner (rest.set (i :: p) w)
  | .other f rest, [], _ => .other f rest
  | .other f rest, 0 :: _, _ => .other f rest
  | .other f rest, (i + 1) :: p, w => .other f (rest.set (i :: p) w)

/-- The ways `Generate` can panic. -/
inductive Panic where
  /-- `reflect: call of reflect.Value.Elem on zero Value`: `c.data` is nil. -/
  | zeroValue
  /-- `reflect.Value.Interface: cannot return value obtained from unexported field`. -/
  | unexported
  /-- `interface conversion`: the pointer is to a defined type, not `*string`, `*int`, `*bool`. -/
  | typeAssertion
  /-- `flag redefined: name`, from `flag.Var`. -/
  | redefined (name : String)
  deriving DecidableEq, Repr

/-! ## Library: flag and strconv -/

/-- What `field.Addr()` yields: the address of the record `c.data` points to
and the index path of the field inside it. -/
structure Pointer where
  addr : Nat
  path : List Nat
  deriving DecidableEq, Repr

/-- Go `flag.Flag`.  `Value` is the variable the flag is bound to; `DefValue`
is the default, kept typed (Go keeps its text). -/
structure Flag where
  Name : String
  Usage : String
  Value : Pointer
  DefValue : Leaf
  deriving DecidableEq, Repr

/-- Go `flag.FlagSet`: the registered flags (`formal`), here in registration order. -/
structure FlagSet where
  formal : List Flag
  deriving DecidableEq, Repr

/-- Go `flag.Lookup`. -/
def FlagSet.Lookup (fs : FlagSet) (name : String) : Option Flag :=
  fs.formal.find? (fun f => f.Name == name)

/-- Go `flag.StringVar`, `flag.IntVar`, `flag.BoolVar` (the kind is that of
`value`): `flag.Var` panics when the name is already registered, leaving the
registry as it is, and otherwise adds the flag with `value` as default.  The
store `*p = value` that goes with it writes the value `parse` has just read
from `p`, so the heap stays as it is. -/
def FlagSet.Var (fs : FlagSet) (p : Pointer) (name : String) (value : Leaf) (usage : String) :
    FlagSet × Option Panic :=
  match fs.Lookup name with
  | some _ => (fs, some (.redefined name))
  | none => (⟨fs.formal ++ [⟨name, usage, p, value⟩]⟩, none)

/-- The text given to `flag.Set`, as far as the three flag types look at it:
the text itself, which a string flag stores; what
`strconv.ParseInt(s, 0, strconv.IntSize)` returns for it, the value (zero, or
the nearest bound for a number out of range, when the parse fails) and whether
the parse fails; and the same of `strconv.ParseBool`. -/
structure Text where
  raw : String
  int : Int
  intFails : Bool
  bool : Bool
  boolFails : Bool

/-- Methods `Set` of `stringValue`, `intValue`, `boolValue` (chosen by the
type of the flag, that of its default `d`): the value assigned to the
variable, also when the parse fails, and whether an error is returned. -/
def Text.parsed (t : Text) (d : Leaf) : Leaf × Bool :=
  match d with
  | .str _ => (.str t.raw, false)
  | .int _ => (.int t.int, t.intFails)
  | .bool _ => (.bool t.bool, t.boolFails)

/-- Go `flag.Set(name, value)`: the heap afterwards and whether `Set` returns
an error.  A name that is not registered is an error and stores nothing;
otherwise the flag's own `Set` stores through the flag's pointer, and its
error is returned. -/
def FlagSet.Set (fs : FlagSet) (name : String) (value : Text) (heap : Nat → Record) :
    (Nat → Record) × Bool :=
  match fs.Lookup name with
  | none => (heap, true)
  | some f =>
    (Function.update heap f.Value.addr
      ((heap f.Value.addr).set f.Value.path (value.parsed f.DefValue).1),
      (value.parsed f.DefValue).2)

/-! ## config.go: Generate and parse -/

/-- The manager `config`: `data` is nil or the pointer given to the last
successful load, as the address of the record it points to. -/
structure config where
  data : Option Nat
  deriving DecidableEq, Repr

/-- The name `parse` computes for field `f` under `pfx` (lines 82-86). -/
def fieldName (u : Runes) (pfx : String) (f : StructField) : String :=
  if pfx = "" then ToLower u f.Name else ToLower u (Join pfx f.Name)

/-- The prefix `parse` passes down into a struct field (lines 90-94). -/
def childPrefix (u : Runes) (pfx : String) (f : StructField) : String :=
  if pfx = "" then fieldName u pfx f else pfx ++ "." ++ fieldName u pfx f

/-- Method `parse` of `config.go`: the registry it leaves, and the panic that
ended it, if one did.  The `reflect.Value` argument is the record `value` (the
fields from index `i` on), its sticky read-only mark `ro`, and its location
`addr`, `base`; `i` is the loop counter. -/
def parse (u : Runes) :
    Record → String → Bool → Nat → List Nat → Nat → FlagSet → FlagSet × Option Panic
  | .done, _, _, _, _, _, fs => (fs, none)
  | .leaf f defined v rest, pfx, ro, addr, base, i, fs =>
    if ro || !IsExported u f.Name then (fs, some .unexported)
    else if defined then (fs, some .typeAssertion)
    else
      match fs.Var ⟨addr, base ++ [i]⟩ (fieldName u pfx f) v (fieldName u pfx f) with
      | (fs1, some p) => (fs1, some p)
      | (fs1, none) => parse u rest pfx ro addr base (i + 1) fs1
  | .struct f inner rest, pfx, ro, addr, base, i, fs =>
    match parse u inner (childPrefix u pfx f) (ro || (!IsExported u f.Name && !f.Anonymous))
        addr (base ++ [i]) 0 fs with
    | (fs1, some p) => (fs1, some p)
    | (fs1, none) => parse u rest pfx ro addr base (i + 1) fs1
  | .other _ rest, pfx, ro, addr, base, i, fs => parse u rest pfx ro addr base (i + 1) fs

/-- Method `Generate` of `config.go`: `c.parse(reflect.ValueOf(c.data).Elem(), "")`. -/
def Generate (u : Runes) (c : config) (heap : Nat → Record) (fs : FlagSet) :
    FlagSet × Option Panic :=
  match c.data with
  | none => (fs, some .zeroValue)
  | some a => parse u (heap a) "" false a [] 0 fs

/-! ## Library: os and github.com/pkg/errors -/

/-- A Go `error` value, as far as `config.go` tells errors apart. -/
inductive GoError where
  /-- A `*os.PathError` from `os.Open`; `notExist` is what `os.IsNotExist` answers. -/
  | pathError (notExist : Bool)
  /-- The package variable `UnsupportedError`. -/
  | unsupported
  /-- An error made by a decoder or by the HTTP client. -/
  | foreign (msg : String)
  /-- The result of `errors.Wrap` / `errors.Wrapf` on a non-nil error. -/
  | wrapped (msg : String) (cause : GoError)
  deriving DecidableEq, Repr

/-- Go `errors.Wrap(err, message)` of `github.com/pkg/errors`: "If err is nil,
Wrap returns nil." -/
def Wrap (err : Option GoError) (message : String) : Option GoError :=
  match err with
  | none => none
  | some e => some (.wrapped message e)

/-- The type assertion `err.(*os.PathError)`. -/
def isPathError : GoError → Bool
  | .pathError _ => true
  | _ => false

/-- The result of `os.Open(path)`: a `*os.PathError`, or the opened file's content. -/
inductive OpenResult (β : Type) where
  | failed (notExist : Bool)
  | file (content : β)

/-! ## config.go: the file merger -/

/-- Type `FileEncoding int`. -/
abbrev FileEncoding := Int

/-- Constant `JSON FileEncoding = iota`. -/
def JSON : FileEncoding := 0

/-- Constant `YAML`. -/
def YAML : FileEncoding := 1

/-- Variable `UnsupportedError`. -/
def UnsupportedError : GoError := .unsupported

/-- A decoder of the jsoniter / yaml libraries, on the record it is given a
pointer to: the record after the call (a failing decode may already have
written) and the error. -/
abbrev Decoder (α β : Type) := β → α → α × Option GoError

/-- Method `decode` of `config.go`. -/
def decode {α β : Type} (jsonDecode yamlDecode : Decoder α β) (reader : β)
    (encoding : FileEncoding) (data : Nat) (heap : Nat → α) : (Nat → α) × Option GoError :=
  if encoding = JSON then
    match jsonDecode reader (heap data) with
    | (d, some err) => (Function.update heap data d, Wrap (some err) "json解析错误")
    | (d, none) => (Function.update heap data d, none)
  else if encoding = YAML then
    match yamlDecode reader (heap data) with
    | (d, some err) => (Function.update heap data d, Wrap (some err) "yaml解析错误")
    | (d, none) => (Function.update heap data d, none)
  else (heap, some UnsupportedError)

/-- Method `readAndParse` of `config.go`; `os` answers `os.Open`. -/
def readAndParse {α β : Type} (jsonDecode yamlDecode : Decoder α β) (os : String → OpenResult β)
    (path : String) (encoding : FileEncoding) (data : Nat) (heap : Nat → α) :
    (Nat → α) × Option GoError :=
  match os path with
  | .failed notExist =>
    if notExist then (heap, some (.pathError notExist))
    else (heap, Wrap (some (.pathError notExist)) ("打开配置文件" ++ path))
  | .file configFile =>
    match decode jsonDecode yamlDecode configFile encoding data heap with
    | (h, some err) => (h, Wrap (some err) ("解析配置文件" ++ path))
    | (h, none) => (h, none)

/-- Method `LoadFile` of `config.go`: the returned error, the manager and the heap. -/
def LoadFile {α β : Type} (jsonDecode yamlDecode : Decoder α β) (os : String → OpenResult β)
    (c : config) (path localPath : String) (encoding : FileEncoding) (data : Nat)
    (heap : Nat → α) : Option GoError × config × (Nat → α) :=
  match readAndParse jsonDecode yamlDecode os path encoding data heap with
  | (h1, some err) => (some err, c, h1)
  | (h1, none) =>
    if localPath ≠ "" then
      match readAndParse jsonDecode yamlDecode os localPath encoding data h1 with
      | (h2, some err) =>
        if isPathError err then (none, ⟨some data⟩, h2) else (some err, c, h2)
      | (h2, none) => (none, ⟨some data⟩, h2)
    else (none, ⟨some data⟩, h1)

/-! ## config.go: the remote fetcher -/

/-- Modelled from the spec: the format tag of the envelope's payload
(`model.JSON`, `model.YAML` of `github.com/fighterlyt/cfgStore/model`, or any
other value). -/
inductive Tag where
  | JSON
  | YAML
  | unknown
  deriving DecidableEq, Repr

/-- Modelled from the spec: `model.Config`, "a nested payload carrying a format
tag and the raw encoded configuration text"; `Typ` is its field `Type`. -/
structure ModelConfig (β : Type) where
  Typ : Tag
  Data : β

/-- Modelled from the spec: `model.Response`, the envelope "with an error code,
an error message, and a nested payload". -/
structure Response (β : Type) where
  ErrorCode : Int
  Error : String
  Data : ModelConfig β

/-- The outcome of `http.Get` followed by decoding the body into the envelope:
a transport error, an envelope that does not decode, or the envelope. -/
inductive GetResult (β : Type) where
  | failed (err : GoError)
  | undecodable (err : GoError)
  | envelope (respData : Response β)

/-- Method `LoadFromServer` of `config.go`; `get` answers `http.Get` and the
envelope decode. -/
def LoadFromServer {α β : Type} (jsonDecode yamlDecode : Decoder α β)
    (get : String → GetResult β) (c : config) (url key : String) (data : Nat)
    (heap : Nat → α) : Option GoError × config × (Nat → α) :=
  match get (url ++ "/" ++ key) with
  | .failed err => (Wrap (some err) "发起请求", c, heap)
  | .undecodable err => (Wrap (some err) "解析数据", c, heap)
  | .envelope respData =>
    if respData.ErrorCode ≠ 0 then (Wrap none respData.Error, c, heap)
    else
      match respData.Data.Typ with
      | .JSON =>
        match decode jsonDecode yamlDecode respData.Data.Data JSON data heap with
        | (h, none) => (none, ⟨some data⟩, h)
        | (h, some err) => (some err, c, h)
      | .YAML =>
        match decode jsonDecode yamlDecode respData.Data.Data YAML data heap with
        | (h, none) => (none, ⟨some data⟩, h)
        | (h, some err) => (some err, c, h)
      | .unknown => (some UnsupportedError, c, heap)

/-! ## Specification-side definitions -/

/-- The flags a run of `parse` that does not panic registers, in order. -/
def flagsOf (u : Runes) : Record → String → Nat → List Nat → Nat → List Flag
  | .done, _, _, _, _ => []
  | .leaf f _ v rest, pfx, addr, base, i =>
    ⟨fieldName u pfx f, fieldName u pfx f, ⟨addr, base ++ [i]⟩, v⟩ ::
      flagsOf u rest pfx addr base (i + 1)
  | .struct f inner rest, pfx, addr, base, i =>
    flagsOf u inner (childPrefix u pfx f) addr (base ++ [i]) 0 ++
      flagsOf u rest pfx addr base (i + 1)
  | .other _ rest, pfx, addr, base, i => flagsOf u rest pfx addr base (i + 1)

/-- The flag names `parse` computes for the fields of kind string, int or bool
of a record, in the order it reaches them. -/
def namesOf (u : Runes) : Record → String → List String
  | .done, _ => []
  | .leaf f _ _ rest, pfx => fieldName u pfx f :: namesOf u rest pfx
  | .struct f inner rest, pfx => namesOf u inner (childPrefix u pfx f) ++ namesOf u rest pfx
  | .other _ rest, pfx => namesOf u rest pfx

/-- No field of kind string, int or bool is of a defined type, is unexported,
or lies below an unexported field that is not embedded. -/
def bindable (u : Runes) : Record → Bool → Bool
  | .done, _ => true
  | .leaf f defined _ rest, ro =>
    !(ro || !IsExported u f.Name) && !defined && bindable u rest ro
  | .struct f inner rest, ro =>
    bindable u inner (ro || (!IsExported u f.Name && !f.Anonymous)) && bindable u rest ro
  | .other _ rest, ro => bindable u rest ro

/-- The names registered in a flag set. -/
def FlagSet.names (fs : FlagSet) : List String := fs.formal.map (fun f => f.Name)

/-- The fields of kind string, int or bool of a record in depth-first
pre-order, following declaration order: the index path of each and its value.
A path below the first field starts with 0; the paths of the fields after the
first have their first index moved up by one. -/
def leafFields : Record → List (List Nat × Leaf)
  | .done => []
  | .leaf _ _ v rest => ([0], v) :: (leafFields rest).map (fun q => (q.1.modifyHead (· + 1), q.2))
  | .struct _ inner rest =>
    (leafFields inner).map (fun q => (0 :: q.1, q.2)) ++
      (leafFields rest).map (fun q => (q.1.modifyHead (· + 1), q.2))
  | .other _ rest => (leafFields rest).map (fun q => (q.1.modifyHead (· + 1), q.2))

/-- The names of the fields of a struct, in declaration order. -/
def Record.fieldNames : Record → List String
  | .done => []
  | .leaf f _ _ rest => f.Name :: rest.fieldNames
  | .struct f _ rest => f.Name :: rest.fieldNames
  | .other f rest => f.Name :: rest.fieldNames

/-- A field name is not empty and has no '.' in it, as every Go identifier. -/
def validName (s : String) : Bool := s.data ≠ [] && !s.data.contains '.'

/-- Every field name, at every depth, is a valid name. -/
def validNames : Record → Bool
  | .done => true
  | .leaf f _ _ rest => validName f.Name && validNames rest
  | .struct f inner rest => validName f.Name && validNames inner && validNames rest
  | .other f rest => validName f.Name && validNames rest

/-- In every struct, at every depth, the lower-cased names of the fields are
pairwise distinct. -/
def distinctSiblings (u : Runes) : Record → Bool
  | .done => true
  | .leaf f _ _ rest =>
    !(rest.fieldNames.map (ToLower u)).contains (ToLower u f.Name) && distinctSiblings u rest
  | .struct f inner rest =>
    !(rest.fieldNames.map (ToLower u)).contains (ToLower u f.Name) &&
      distinctSiblings u inner && distinctSiblings u rest
  | .other f rest =>
    !(rest.fieldNames.map (ToLower u)).contains (ToLower u f.Name) && distinctSiblings u rest

/-- What the naming argument uses of `unicode.ToLower`, and Go's has: it
leaves '.' as it is, sends no other character to '.', and lower-casing twice is
lower-casing once. -/
structure Runes.Lawful (u : Runes) : Prop where
  dot : u.ToLower '.' = '.'
  dot_only : ∀ c, u.ToLower c = '.' → c = '.'
  idem : ∀ c, u.ToLower (u.ToLower c) = u.ToLower c

/-- The dotted path the specification gives a field: the lower-cased names of
its ancestors and its own, joined with '.'. -/
def dottedPath (u : Runes) (segments : List String) : String :=
  ".".intercalate (segments.map (ToLower u))

/-- Modelled from the spec: a decoder with "merge by presence" semantics.  The
payload is `none` when the text is malformed, else the value it has for each
field that is present in it. -/
def overwriteByPresence {K V : Type} : Decoder (K → V) (Option (K → Option V)) :=
  fun payload target =>
    match payload with
    | none => (target, some (.foreign "malformed payload"))
    | some p => (fun k => (p k).getD (target k), none)

/-! ## Definitions used in the statements and proofs -/

/-- The characters of `strings.ToLower s`. -/
def lo (u : Runes) (s : String) : List Char := s.data.map u.ToLower

/-- What the name of a field starts with under prefix `p`: nothing at the top
level, else the lower-cased prefix and a '.'. -/
def dotted (u : Runes) (p : String) : List Char := if p = "" then [] else lo u p ++ ['.']

/-- The lower case of the letters of Basic Latin and Latin-1, as
`unicode.ToLower` has it: `A`..`Z`, `À`..`Ö` and `Ø`..`Þ` move up by 32. -/
def latinToLower (c : Char) : Char :=
  if (65 ≤ c.toNat ∧ c.toNat ≤ 90) ∨ (192 ≤ c.toNat ∧ c.toNat ≤ 214) ∨
      (216 ≤ c.toNat ∧ c.toNat ≤ 222) then Char.ofNat (c.toNat + 32)
  else c

/-- The upper-case letters of Basic Latin and Latin-1, as `unicode.IsUpper`
has them. -/
def latinIsUpper (c : Char) : Bool :=
  decide ((65 ≤ c.toNat ∧ c.toNat ≤ 90) ∨ (192 ≤ c.toNat ∧ c.toNat ≤ 214) ∨
    (216 ≤ c.toNat ∧ c.toNat ≤ 222))

/-- The tables of `unicode` on Basic Latin and Latin-1, where the names of the
examples below lie; a character beyond Latin-1 is left as it is and counts as
not upper case.  Only the examples use it: the general theorems are about
every `u : Runes`. -/
def latin : Runes := ⟨latinToLower, latinIsUpper⟩

/-- The value `IntOnly{Start: start, Bool: b}` of `config_test.go`. -/
def IntOnly (start : Int) (b : Bool) : Record :=
  .leaf ⟨"Start", false⟩ false (.int start) (.leaf ⟨"Bool", false⟩ false (.bool b) .done)

/-- The value `IntWithStruct{Start: start, End: IntOnly{Start: endStart, Bool: b}}`
of `config_test.go`. -/
def IntWithStruct (start endStart : Int) (b : Bool) : Record :=
  .leaf ⟨"Start", false⟩ false (.int start) (.struct ⟨"End", false⟩ (IntOnly endStart b) .done)

/-- A record nested three deep: `struct { A struct { B struct { C int } } }` with `C` holding 7. -/
def nestedABC : Record :=
  .struct ⟨"A", false⟩ (.struct ⟨"B", false⟩ (.leaf ⟨"C", false⟩ false (.int 7) .done) .done) .done

/-- A record with fields of kinds `parse` has no case for between the others:
`struct { Tags []string; Port int; Inner struct { Rate float64; Name string } }`. -/
def mixedKinds : Record :=
  .other ⟨"Tags", false⟩ (.leaf ⟨"Port", false⟩ false (.int 80)
    (.struct ⟨"Inner", false⟩ (.other ⟨"Rate", false⟩ (.leaf ⟨"Name", false⟩ false (.str "x") .done))
      .done))

/-- The record `struct { A int; B Level; C int }` with `type Level int`, holding 1, 2, 3. -/
def levelBetween : Record :=
  .leaf ⟨"A", false⟩ false (.int 1) (.leaf ⟨"B", false⟩ true (.int 2)
    (.leaf ⟨"C", false⟩ false (.int 3) .done))

/-- The record `struct { A int; b int; C int }`, holding 1, 2, 3. -/
def unexportedBetween : Record :=
  .leaf ⟨"A", false⟩ false (.int 1) (.leaf ⟨"b", false⟩ false (.int 2)
    (.leaf ⟨"C", false⟩ false (.int 3) .done))

/-- A record with six fields of kind string, int or bool at three depths, some
of one name under different parents:
`struct { Start int; End struct { Start int; Bool bool };
Deep struct { End struct { Start int; École string }; Start int } }`. -/
def manyLeaves : Record :=
  .leaf ⟨"Start", false⟩ false (.int 1)
    (.struct ⟨"End", false⟩ (IntOnly 2 true)
      (.struct ⟨"Deep", false⟩
        (.struct ⟨"End", false⟩
          (.leaf ⟨"Start", false⟩ false (.int 3) (.leaf ⟨"École", false⟩ false (.str "x") .done))
          (.leaf ⟨"Start", false⟩ false (.int 4) .done))
        .done))

/-- The records of `config_test.go` after their loads: `IntOnly{Start: 11}` of
`TestConfig_LoadFile` at address 0, `IntWithStruct{Start: 11, End: {Start: 11}}`
of `TestConfig_LoadFileComplex` at address 1. -/
def testHeap : Nat → Record
  | 0 => IntOnly 11 false
  | _ => IntWithStruct 11 11 false

/-- The registry after `Generate` in `TestConfig_LoadFile`: flags "start" and "bool". -/
def registryAfterFirstTest : FlagSet :=
  ⟨[⟨"start", "start", ⟨0, [0]⟩, .int 11⟩, ⟨"bool", "bool", ⟨0, [1]⟩, .bool false⟩]⟩

/-- The text "12" given to `flag.Set`: the integer 12, and no boolean. -/
def twelve : Text := ⟨"12", 12, false, false, true⟩

/-- The field values a payload holds: none for a malformed payload. -/
def presentIn {K V : Type} (payload : Option (K → Option V)) (k : K) : Option V :=
  match payload with
  | none => none
  | some p => p k

/-- The files of `TestConfig_LoadFile`: a global file with `Start` 10 and a
local file with `Start` 11; no other file exists. -/
def testFiles : String → OpenResult (Option (String → Option Int))
  | "global.json" => .file (some (fun k => if k = "Start" then some 10 else none))
  | "local.json" => .file (some (fun k => if k = "Start" then some 11 else none))
  | _ => .failed true

/-- The server of scenario C: it answers with the envelope
`errorCode: 1, error: "not found"`, whatever the key. -/
def notFoundServer : String → GetResult String :=
  fun _ => .envelope ⟨1, "not found", ⟨.JSON, "\x7b\"Start\":10\x7d"⟩⟩

/-- A decoder standing for jsoniter on records: it stores 10 in the field at
index 0 and reports no error. -/
def storeTen : Decoder Record String :=
  fun _ target => (target.set [0] (.int 10), none)

/-- The value a field ends with: the local payload's when it has one, else the
global payload's when it has one, else the prior value. -/
def layered {V : Type} (loc glob : Option V) (prior : V) : V :=
  match loc with
  | some v => v
  | none =>
    match glob with
    | some v => v
    | none => prior

/-! ## Lemmas: lower-casing and names -/

theorem ofNat_shift (n : Nat)
    (h : (65 ≤ n ∧ n ≤ 90) ∨ (192 ≤ n ∧ n ≤ 214) ∨ (216 ≤ n ∧ n ≤ 222)) :
    Char.ofNat (n + 32) ≠ '.' ∧ (Char.ofNat (n + 32)).toNat = n + 32 := by
  rcases h with ⟨h1, h2⟩ | ⟨h1, h2⟩ | ⟨h1, h2⟩ <;> interval_cases n <;> decide

theorem latin_lawful : latin.Lawful := by
  refine ⟨by decide, ?_, ?_⟩
  · intro c hc
    by_contra hne
    have hc' : latinToLower c = '.' := hc
    unfold latinToLower at hc'
    split at hc'
    · rename_i h
      exact (ofNat_shift _ h).1 hc'
    · exact hne hc'
  · intro c
    show latinToLower (latinToLower c) = latinToLower c
    by_cases h : (65 ≤ c.toNat ∧ c.toNat ≤ 90) ∨ (192 ≤ c.toNat ∧ c.toNat ≤ 214) ∨
        (216 ≤ c.toNat ∧ c.toNat ≤ 222)
    · have e : latinToLower c = Char.ofNat (c.toNat + 32) := by
        unfold latinToLower; rw [if_pos h]
      rw [e]
      unfold latinToLower
      rw [if_neg]
      rw [(ofNat_shift _ h).2]
      omega
    · have e : latinToLower c = c := by
        unfold latinToLower; rw [if_neg h]
      rw [e, e]

theorem ToLower_data (u : Runes) (s : String) : (ToLower u s).data = lo u s := rfl

theorem lo_ToLower (u : Runes) (hu : u.Lawful) (s : String) : lo u (ToLower u s) = lo u s := by
  simp [lo, ToLower, hu.idem]

theorem lo_no_dot (u : Runes) (hu : u.Lawful) (s : String) (h : '.' ∉ s.data) :
    '.' ∉ lo u s := by
  intro hm
  simp only [lo, List.mem_map] at hm
  obtain ⟨c, hc, he⟩ := hm
  exact h (hu.dot_only c he ▸ hc)

theorem eq_empty_iff (s : String) : s = "" ↔ s.data = [] := by
  constructor
  · intro h; rw [h]
  · intro h; exact String.ext h

theorem lo_eq_nil (u : Runes) (s : String) : lo u s = [] ↔ s.data = [] := by
  simp [lo]

theorem Join_data (a b : String) : (Join a b).data = a.data ++ '.' :: b.data := by
  simp [Join, String.data_append]

theorem lo_Join (u : Runes) (hu : u.Lawful) (a b : String) :
    lo u (Join a b) = lo u a ++ '.' :: lo u b := by
  simp [lo, Join_data, hu.dot]

theorem fieldName_data (u : Runes) (hu : u.Lawful) (p : String) (f : StructField) :
    (fieldName u p f).data = dotted u p ++ lo u f.Name := by
  unfold fieldName dotted
  split
  · simp [ToLower_data]
  · simp [ToLower_data, lo_Join u hu]

theorem validName_iff (s : String) : validName s = true ↔ s.data ≠ [] ∧ '.' ∉ s.data := by
  simp [validName]

theorem childPrefix_dotted (u : Runes) (hu : u.Lawful) (p : String) (f : StructField)
    (h : f.Name.data ≠ []) :
    dotted u (childPrefix u p f) = dotted u p ++ dotted u p ++ lo u f.Name ++ ['.'] := by
  unfold childPrefix
  by_cases hp : p = ""
  · have hne : fieldName u p f ≠ "" := by
      rw [Ne, eq_empty_iff, fieldName_data u hu]
      simp [dotted, hp, lo_eq_nil, h]
    have hl : lo u (fieldName u p f) = lo u f.Name := by
      simp [fieldName, hp, lo_ToLower u hu]
    rw [if_pos hp]
    subst hp
    simp [dotted, hne, hl]
  · rw [if_neg hp]
    have hne : p ++ "." ++ fieldName u p f ≠ "" := by
      rw [Ne, eq_empty_iff]
      simp [String.data_append]
    have hl : lo u (p ++ "." ++ fieldName u p f) =
        lo u p ++ '.' :: (lo u p ++ '.' :: lo u f.Name) := by
      have : fieldName u p f = ToLower u (Join p f.Name) := by simp [fieldName, hp]
      rw [this]
      show lo u (Join p (ToLower u (Join p f.Name))) = _
      rw [lo_Join u hu, lo_ToLower u hu, lo_Join u hu]
    simp [dotted, hne, hp, hl]

theorem namesOf_dotted (u : Runes) (hu : u.Lawful) (r : Record) : ∀ (p : String),
    validNames r = true → ∀ n ∈ namesOf u r p, ∃ t, n.data = dotted u p ++ t := by
  induction r with
  | done => intro p _ n hn; simp [namesOf] at hn
  | leaf f d v rest ih =>
    intro p hv n hn
    simp only [validNames, Bool.and_eq_true] at hv
    simp only [namesOf, List.mem_cons] at hn
    rcases hn with hn | hn
    · exact ⟨lo u f.Name, by rw [hn, fieldName_data u hu]⟩
    · exact ih p hv.2 n hn
  | struct f inner rest ihi ihr =>
    intro p hv n hn
    simp only [validNames, Bool.and_eq_true] at hv
    simp only [namesOf, List.mem_append] at hn
    rcases hn with hn | hn
    · obtain ⟨t, ht⟩ := ihi (childPrefix u p f) hv.1.2 n hn
      rw [childPrefix_dotted u hu p f ((validName_iff _).1 hv.1.1).1] at ht
      exact ⟨dotted u p ++ lo u f.Name ++ ['.'] ++ t, by rw [ht]; simp⟩
    · exact ihr p hv.2 n hn
  | other f rest ih =>
    intro p hv n hn
    simp only [validNames, Bool.and_eq_true] at hv
    simp only [namesOf] at hn
    exact ih p hv.2 n hn

theorem namesOf_field (u : Runes) (hu : u.Lawful) (r : Record) : ∀ (p : String),
    validNames r = true →
    ∀ n ∈ namesOf u r p, ∃ g ∈ r.fieldNames, n.data = dotted u p ++ lo u g ∨
      ∃ t, n.data = dotted u p ++ (dotted u p ++ (lo u g ++ '.' :: t)) := by
  induction r with
  | done => intro p _ n hn; simp [namesOf] at hn
  | leaf f d v rest ih =>
    intro p hv n hn
    simp only [validNames, Bool.and_eq_true] at hv
    simp only [namesOf, List.mem_cons] at hn
    rcases hn with hn | hn
    · exact ⟨f.Name, by simp [Record.fieldNames], Or.inl (by rw [hn, fieldName_data u hu])⟩
    · obtain ⟨g, hg, h⟩ := ih p hv.2 n hn
      exact ⟨g, by simp [Record.fieldNames, hg], h⟩
  | struct f inner rest _ ihr =>
    intro p hv n hn
    simp only [validNames, Bool.and_eq_true] at hv
    simp only [namesOf, List.mem_append] at hn
    rcases hn with hn | hn
    · obtain ⟨t, ht⟩ := namesOf_dotted u hu inner (childPrefix u p f) hv.1.2 n hn
      rw [childPrefix_dotted u hu p f ((validName_iff _).1 hv.1.1).1] at ht
      exact ⟨f.Name, by simp [Record.fieldNames], Or.inr ⟨t, by rw [ht]; simp⟩⟩
    · obtain ⟨g, hg, h⟩ := ihr p hv.2 n hn
      exact ⟨g, by simp [Record.fieldNames, hg], h⟩
  | other f rest ih =>
    intro p hv n hn
    simp only [validNames, Bool.and_eq_true] at hv
    simp only [namesOf] at hn
    obtain ⟨g, hg, h⟩ := ih p hv.2 n hn
    exact ⟨g, by simp [Record.fieldNames, hg], h⟩

theorem validNames_fieldNames (r : Record) (hv : validNames r = true) :
    ∀ g ∈ r.fieldNames, '.' ∉ g.data := by
  induction r with
  | done => intro g hg; simp [Record.fieldNames] at hg
  | leaf f d v rest ih =>
    intro g hg
    simp only [validNames, Bool.and_eq_true] at hv
    simp only [Record.fieldNames, List.mem_cons] at hg
    rcases hg with hg | hg
    · rw [hg]; exact ((validName_iff _).1 hv.1).2
    · exact ih hv.2 g hg
  | struct f inner rest _ ih =>
    intro g hg
    simp only [validNames, Bool.and_eq_true] at hv
    simp only [Record.fieldNames, List.mem_cons] at hg
    rcases hg with hg | hg
    · rw [hg]; exact ((validName_iff _).1 hv.1.1).2
    · exact ih hv.2 g hg
  | other f rest ih =>
    intro g hg
    simp only [validNames, Bool.and_eq_true] at hv
    simp only [Record.fieldNames, List.mem_cons] at hg
    rcases hg with hg | hg
    · rw [hg]; exact ((validName_iff _).1 hv.1).2
    · exact ih hv.2 g hg

/-- Two dot-free segments followed by a dot: equal texts have equal segments. -/
theorem segment_cancel : ∀ (a b s t : List Char), '.' ∉ a → '.' ∉ b →
    a ++ '.' :: s = b ++ '.' :: t → a = b
  | [], [], _, _, _, _, _ => rfl
  | [], y :: b, s, t, _, hb, h => by
    simp only [List.nil_append, List.cons_append, List.cons.injEq] at h
    exact absurd (by rw [← h.1]; simp) hb
  | x :: a, [], s, t, ha, _, h => by
    simp only [List.nil_append, List.cons_append, List.cons.injEq] at h
    exact absurd (by rw [h.1]; simp) ha
  | x :: a, y :: b, s, t, ha, hb, h => by
    simp only [List.cons_append, List.cons.injEq] at h
    simp only [List.mem_cons, not_or] at ha hb
    rw [h.1, segment_cancel a b s t ha.2 hb.2 h.2]

/-- Names that `parse` derives below two fields with different lower-cased,
dot-free names differ. -/
theorem names_of_distinct_fields (u : Runes) (hu : u.Lawful) (p f g : String) (n m : String)
    (hf : '.' ∉ f.data) (hg : '.' ∉ g.data) (hne : lo u f ≠ lo u g)
    (hn : n.data = dotted u p ++ lo u f ∨
      ∃ t, n.data = dotted u p ++ (dotted u p ++ (lo u f ++ '.' :: t)))
    (hm : m.data = dotted u p ++ lo u g ∨
      ∃ t, m.data = dotted u p ++ (dotted u p ++ (lo u g ++ '.' :: t))) :
    n ≠ m := by
  intro e
  subst e
  have hf2 := lo_no_dot u hu f hf
  have hg2 := lo_no_dot u hu g hg
  rcases hn with hn | ⟨t, hn⟩ <;> rcases hm with hm | ⟨u, hm⟩
  · rw [hn] at hm
    exact hne (List.append_cancel_left hm)
  · rw [hn] at hm
    have := List.append_cancel_left hm
    apply hf2
    rw [this]; simp
  · rw [hm] at hn
    have := List.append_cancel_left hn
    apply hg2
    rw [this]; simp
  · rw [hn] at hm
    have := List.append_cancel_left (List.append_cancel_left hm)
    exact hne (segment_cancel _ _ _ _ hf2 hg2 this)

theorem namesOf_nodup (u : Runes) (hu : u.Lawful) (r : Record) : ∀ (p : String),
    validNames r = true → distinctSiblings u r = true → (namesOf u r p).Nodup := by
  induction r with
  | done => intro p _ _; simp [namesOf]
  | leaf f d v rest ih =>
    intro p hv hd
    have hv0 := hv
    simp only [validNames, Bool.and_eq_true] at hv
    simp only [distinctSiblings, Bool.and_eq_true, Bool.not_eq_true', List.contains_eq_any_beq,
      List.any_eq_false, List.mem_map, beq_iff_eq] at hd
    simp only [namesOf, List.nodup_cons]
    refine ⟨?_, ih p hv.2 hd.2⟩
    intro hmem
    obtain ⟨g, hg, h⟩ := namesOf_field u hu rest p hv.2 _ hmem
    have hne : lo u f.Name ≠ lo u g := by
      intro e
      exact hd.1 (ToLower u g) ⟨g, hg, rfl⟩ (String.ext e)
    exact names_of_distinct_fields u hu p f.Name g _ _ ((validName_iff _).1 hv.1).2
      (validNames_fieldNames rest hv.2 g hg) hne (Or.inl (fieldName_data u hu p f)) h rfl
  | struct f inner rest ihi ihr =>
    intro p hv hd
    simp only [validNames, Bool.and_eq_true] at hv
    simp only [distinctSiblings, Bool.and_eq_true, Bool.not_eq_true', List.contains_eq_any_beq,
      List.any_eq_false, List.mem_map, beq_iff_eq] at hd
    simp only [namesOf]
    refine List.Nodup.append (ihi _ hv.1.2 hd.1.2) (ihr p hv.2 hd.2) ?_
    intro n hn1 hn2
    obtain ⟨t, ht⟩ := namesOf_dotted u hu inner (childPrefix u p f) hv.1.2 n hn1
    rw [childPrefix_dotted u hu p f ((validName_iff _).1 hv.1.1).1] at ht
    obtain ⟨g, hg, h⟩ := namesOf_field u hu rest p hv.2 _ hn2
    have hne : lo u f.Name ≠ lo u g := by
      intro e
      exact hd.1.1 (ToLower u g) ⟨g, hg, rfl⟩ (String.ext e)
    exact names_of_distinct_fields u hu p f.Name g n n ((validName_iff _).1 hv.1.1).2
      (validNames_fieldNames rest hv.2 g hg) hne (Or.inr ⟨t, by rw [ht]; simp⟩) h rfl
  | other f rest ih =>
    intro p hv hd
    simp only [validNames, Bool.and_eq_true] at hv
    simp only [distinctSiblings, Bool.and_eq_true] at hd
    simp only [namesOf]
    exact ih p hv.2 hd.2

/-! ## Lemmas: parse, the registry and index paths -/

theorem flagsOf_names (u : Runes) (r : Record) :
    ∀ (p : String) (a : Nat) (base : List Nat) (i : Nat),
    (flagsOf u r p a base i).map (fun f => f.Name) = namesOf u r p := by
  induction r with
  | done => intro p a base i; rfl
  | leaf f d v rest ih => intro p a base i; simp [flagsOf, namesOf, ih]
  | struct f inner rest ihi ihr => intro p a base i; simp [flagsOf, namesOf, ihi, ihr]
  | other f rest ih => intro p a base i; simp [flagsOf, namesOf, ih]

theorem Lookup_eq_none (fs : FlagSet) (n : String) : fs.Lookup n = none ↔ n ∉ fs.names := by
  simp only [FlagSet.Lookup, FlagSet.names, List.find?_eq_none, List.mem_map, beq_iff_eq]
  constructor
  · rintro h ⟨f, hf, e⟩; exact h f hf e
  · intro h f hf e; exact h ⟨f, hf, e⟩

theorem Var_of_mem (fs : FlagSet) (ptr : Pointer) (n : String) (v : Leaf) (s : String)
    (h : n ∈ fs.names) : fs.Var ptr n v s = (fs, some (.redefined n)) := by
  unfold FlagSet.Var
  cases hl : fs.Lookup n with
  | none => exact absurd h ((Lookup_eq_none fs n).1 hl)
  | some _ => rfl

theorem Var_of_not_mem (fs : FlagSet) (ptr : Pointer) (n : String) (v : Leaf) (s : String)
    (h : n ∉ fs.names) : fs.Var ptr n v s = (⟨fs.formal ++ [⟨n, s, ptr, v⟩]⟩, none) := by
  unfold FlagSet.Var
  rw [(Lookup_eq_none fs n).2 h]

theorem parse_none_iff (u : Runes) (r : Record) :
    ∀ (p : String) (ro : Bool) (a : Nat) (base : List Nat) (i : Nat) (fs fs' : FlagSet),
    parse u r p ro a base i fs = (fs', none) ↔
      (bindable u r ro = true ∧ (namesOf u r p).Nodup ∧ (∀ n ∈ namesOf u r p, n ∉ fs.names) ∧
        fs' = ⟨fs.formal ++ flagsOf u r p a base i⟩) := by
  induction r with
  | done =>
    intro p ro a base i fs fs'
    simp only [parse, bindable, namesOf, flagsOf, List.nodup_nil, List.not_mem_nil,
      List.append_nil, true_and, Prod.mk.injEq, and_true]
    constructor
    · intro h; exact ⟨fun _ h => h.elim, h.symm⟩
    · intro h; exact h.2.symm
  | leaf f d v rest ih =>
    intro p ro a base i fs fs'
    simp only [parse, bindable, namesOf, flagsOf, List.nodup_cons, List.mem_cons,
      Bool.and_eq_true]
    by_cases c1 : (ro || !IsExported u f.Name) = true
    · simp [c1]
    · rw [if_neg c1]
      cases d with
      | true => simp
      | false =>
        by_cases hm : fieldName u p f ∈ fs.names
        · rw [Var_of_mem _ _ _ _ _ hm]
          simp only [Bool.false_eq_true, if_false]
          constructor
          · intro h; simp at h
          · rintro ⟨_, _, h, _⟩
            exact absurd hm (h _ (Or.inl rfl))
        · rw [Var_of_not_mem _ _ _ _ _ hm]
          simp only [Bool.false_eq_true, if_false]
          rw [ih]
          simp only [FlagSet.names, List.map_append, List.map_cons, List.map_nil,
            List.mem_append, List.mem_singleton, not_or, List.append_assoc,
            List.singleton_append]
          simp only [FlagSet.names] at hm
          constructor
          · rintro ⟨h1, h2, h3, h4⟩
            refine ⟨⟨⟨by simpa using c1, rfl⟩, h1⟩, ⟨fun hx => (h3 _ hx).2 rfl, h2⟩, ?_, h4⟩
            rintro n (rfl | hn)
            · exact hm
            · exact (h3 n hn).1
          · rintro ⟨⟨_, h1⟩, ⟨h2a, h2⟩, h3, h4⟩
            refine ⟨h1, h2, ?_, h4⟩
            intro n hn
            exact ⟨h3 n (Or.inr hn), fun e => h2a (e ▸ hn)⟩
  | struct f inner rest ihi ihr =>
    intro p ro a base i fs fs'
    simp only [parse, bindable, namesOf, flagsOf, Bool.and_eq_true]
    rcases hin : parse u inner (childPrefix u p f)
        (ro || (!IsExported u f.Name && !f.Anonymous)) a (base ++ [i]) 0 fs with ⟨fs1, _ | e⟩
    · obtain ⟨hb, hnd, hdis, hfs1⟩ := (ihi _ _ _ _ _ _ _).1 hin
      simp only
      rw [ihr]
      subst hfs1
      simp only [FlagSet.names, List.map_append, List.mem_append, not_or, List.append_assoc]
      have hnm := flagsOf_names u inner (childPrefix u p f) a (base ++ [i]) 0
      rw [hnm]
      simp only [FlagSet.names] at hdis
      constructor
      · rintro ⟨h1, h2, h3, h4⟩
        refine ⟨⟨hb, h1⟩, ?_, ?_, h4⟩
        · exact List.Nodup.append hnd h2 (fun n hn1 hn2 => (h3 n hn2).2 hn1)
        · rintro n (hn | hn)
          · exact hdis n hn
          · exact (h3 n hn).1
      · rintro ⟨⟨_, h1⟩, h2, h3, h4⟩
        have h2' := List.nodup_append.1 h2
        refine ⟨h1, h2'.2.1, ?_, h4⟩
        intro n hn
        exact ⟨h3 n (Or.inr hn), fun hx => h2'.2.2 hx hn⟩
    · simp only
      constructor
      · intro h; simp at h
      rintro ⟨⟨hb, _⟩, hnd, hdis, _⟩
      have := (ihi (childPrefix u p f) (ro || (!IsExported u f.Name && !f.Anonymous)) a
        (base ++ [i]) 0 fs ⟨fs.formal ++ flagsOf u inner (childPrefix u p f) a (base ++ [i]) 0⟩).2
        ⟨hb, (List.nodup_append.1 hnd).1, fun n hn => hdis n (List.mem_append_left _ hn), rfl⟩
      rw [hin] at this
      simp at this
  | other f rest ih =>
    intro p ro a base i fs fs'
    simp only [parse, bindable, namesOf, flagsOf]
    exact ih _ _ _ _ _ _ _

theorem parse_prefix (u : Runes) (r : Record) :
    ∀ (p : String) (ro : Bool) (a : Nat) (base : List Nat) (i : Nat) (fs : FlagSet),
    ∃ l, l <+: flagsOf u r p a base i ∧ (parse u r p ro a base i fs).1 = ⟨fs.formal ++ l⟩ := by
  induction r with
  | done => intro p ro a base i fs; exact ⟨[], List.nil_prefix, by simp [parse]⟩
  | leaf f d v rest ih =>
    intro p ro a base i fs
    simp only [parse, flagsOf]
    split
    · exact ⟨[], List.nil_prefix, by simp⟩
    · split
      · exact ⟨[], List.nil_prefix, by simp⟩
      · by_cases hm : fieldName u p f ∈ fs.names
        · rw [Var_of_mem _ _ _ _ _ hm]
          exact ⟨[], List.nil_prefix, by simp⟩
        · rw [Var_of_not_mem _ _ _ _ _ hm]
          simp only
          obtain ⟨l, hl, e⟩ := ih p ro a base (i + 1)
            ⟨fs.formal ++ [⟨fieldName u p f, fieldName u p f, ⟨a, base ++ [i]⟩, v⟩]⟩
          refine ⟨_ :: l, (List.prefix_cons_inj _).2 hl, ?_⟩
          rw [e]
          simp
  | struct f inner rest ihi ihr =>
    intro p ro a base i fs
    simp only [parse, flagsOf]
    rcases hin : parse u inner (childPrefix u p f)
        (ro || (!IsExported u f.Name && !f.Anonymous)) a (base ++ [i]) 0 fs with ⟨fs1, _ | e⟩
    · obtain ⟨_, _, _, hfs1⟩ := (parse_none_iff u inner _ _ _ _ _ _ _).1 hin
      simp only
      obtain ⟨l, hl, e⟩ := ihr p ro a base (i + 1) fs1
      refine ⟨flagsOf u inner (childPrefix u p f) a (base ++ [i]) 0 ++ l,
        (List.prefix_append_right_inj _).2 hl, ?_⟩
      rw [e, hfs1]
      simp
    · simp only
      obtain ⟨l, hl, e⟩ := ihi (childPrefix u p f)
        (ro || (!IsExported u f.Name && !f.Anonymous)) a (base ++ [i]) 0 fs
      rw [hin] at e
      exact ⟨l, hl.trans (List.prefix_append _ _), e⟩
  | other f rest ih =>
    intro p ro a base i fs
    simp only [parse, flagsOf]
    exact ih _ _ _ _ _ _

theorem parse_not_redefined (u : Runes) (r : Record) :
    ∀ (p : String) (ro : Bool) (a : Nat) (base : List Nat) (i : Nat) (fs : FlagSet)
    (n : String), (namesOf u r p).Nodup → (∀ m ∈ namesOf u r p, m ∉ fs.names) →
    (parse u r p ro a base i fs).2 ≠ some (.redefined n) := by
  induction r with
  | done => intro p ro a base i fs n _ _ h; simp [parse] at h
  | leaf f d v rest ih =>
    intro p ro a base i fs n hnd hdis
    simp only [namesOf, List.nodup_cons, List.mem_cons] at hnd hdis
    simp only [parse]
    split
    · intro h; simp at h
    · split
      · intro h; simp at h
      · rw [Var_of_not_mem _ _ _ _ _ (hdis _ (Or.inl rfl))]
        simp only
        apply ih _ _ _ _ _ _ _ hnd.2
        intro m hm
        simp only [FlagSet.names, List.map_append, List.map_cons, List.map_nil, List.mem_append,
          List.mem_singleton, not_or]
        exact ⟨hdis m (Or.inr hm), fun e => hnd.1 (e ▸ hm)⟩
  | struct f inner rest ihi ihr =>
    intro p ro a base i fs n hnd hdis
    simp only [namesOf] at hnd hdis
    have hnd' := List.nodup_append.1 hnd
    simp only [parse]
    have hi := ihi (childPrefix u p f) (ro || (!IsExported u f.Name && !f.Anonymous)) a
      (base ++ [i]) 0 fs n hnd'.1 (fun m hm => hdis m (List.mem_append_left _ hm))
    rcases hin : parse u inner (childPrefix u p f)
        (ro || (!IsExported u f.Name && !f.Anonymous)) a (base ++ [i]) 0 fs with ⟨fs1, _ | e⟩
    · simp only
      obtain ⟨_, _, _, hfs1⟩ := (parse_none_iff u inner _ _ _ _ _ _ _).1 hin
      apply ihr _ _ _ _ _ _ _ hnd'.2.1
      intro m hm
      subst hfs1
      simp only [FlagSet.names, List.map_append, List.mem_append, not_or]
      rw [flagsOf_names]
      exact ⟨hdis m (List.mem_append_right _ hm), fun hx => hnd'.2.2 hx hm⟩
    · simp only
      rw [hin] at hi
      exact hi
  | other f rest ih =>
    intro p ro a base i fs n hnd hdis
    simp only [namesOf] at hnd hdis
    simp only [parse]
    exact ih _ _ _ _ _ _ _ hnd hdis

theorem modifyHead_add (q : List Nat) (i : Nat) :
    (q.modifyHead (· + 1)).modifyHead (· + i) = q.modifyHead (· + (i + 1)) := by
  cases q with
  | nil => rfl
  | cons j q => simp [List.modifyHead]; omega

theorem modifyHead_zero (q : List Nat) : q.modifyHead (· + 0) = q := by
  cases q with
  | nil => rfl
  | cons j q => simp [List.modifyHead]

theorem flagsOf_cells (u : Runes) (r : Record) :
    ∀ (p : String) (a : Nat) (base : List Nat) (i : Nat),
    (flagsOf u r p a base i).map (fun f => (f.Value, f.DefValue)) =
      (leafFields r).map (fun q => ((⟨a, base ++ q.1.modifyHead (· + i)⟩ : Pointer), q.2)) := by
  induction r with
  | done => intro p a base i; rfl
  | leaf f d v rest ih =>
    intro p a base i
    simp only [flagsOf, leafFields, List.map_cons, List.map_map, ih]
    congr 1
    · simp [List.modifyHead]
    · apply List.map_congr_left
      intro q _
      simp only [Function.comp, modifyHead_add]
  | struct f inner rest ihi ihr =>
    intro p a base i
    simp only [flagsOf, leafFields, List.map_append, List.map_map, ihi, ihr]
    congr 1
    · apply List.map_congr_left
      intro q _
      have hz := modifyHead_zero q.1
      simp only [Function.comp, List.modifyHead_cons, List.append_assoc, List.singleton_append,
        Nat.zero_add, hz]
    · apply List.map_congr_left
      intro q _
      simp only [Function.comp, modifyHead_add]
  | other f rest ih =>
    intro p a base i
    simp only [flagsOf, leafFields, List.map_map, ih]
    apply List.map_congr_left
    intro q _
    simp only [Function.comp, modifyHead_add]

theorem get_nil (r : Record) : r.get [] = none := by
  cases r <;> rfl

theorem leafFields_get (r : Record) : ∀ q ∈ leafFields r, r.get q.1 = some q.2 := by
  induction r with
  | done => intro q hq; simp [leafFields] at hq
  | leaf f d v rest ih =>
    intro q hq
    simp only [leafFields, List.mem_cons, List.mem_map] at hq
    rcases hq with rfl | ⟨q', hq', rfl⟩
    · rfl
    · have := ih q' hq'
      rcases q' with ⟨_ | ⟨j, t⟩, w⟩
      · simp [get_nil] at this
      · simpa [List.modifyHead, Record.get] using this
  | struct f inner rest ihi ihr =>
    intro q hq
    simp only [leafFields, List.mem_append, List.mem_map] at hq
    rcases hq with ⟨q', hq', rfl⟩ | ⟨q', hq', rfl⟩
    · simpa [Record.get] using ihi q' hq'
    · have := ihr q' hq'
      rcases q' with ⟨_ | ⟨j, t⟩, w⟩
      · simp [get_nil] at this
      · simpa [List.modifyHead, Record.get] using this
  | other f rest ih =>
    intro q hq
    simp only [leafFields, List.mem_map] at hq
    rcases hq with ⟨q', hq', rfl⟩
    have := ih q' hq'
    rcases q' with ⟨_ | ⟨j, t⟩, w⟩
    · simp [get_nil] at this
    · simpa [List.modifyHead, Record.get] using this

theorem get_set_same (r : Record) : ∀ (p : List Nat) (v w : Leaf), r.get p = some v →
    (r.set p w).get p = some w := by
  induction r with
  | done => intro p v w h; simp [Record.get] at h
  | leaf f d x rest ih =>
    intro p v w h
    match p, h with
    | [0], _ => rfl
    | (j + 1) :: t, h =>
      simp only [Record.get] at h
      simp only [Record.set, Record.get]
      exact ih _ _ _ h
  | struct f inner rest ihi ihr =>
    intro p v w h
    match p, h with
    | 0 :: t, h =>
      simp only [Record.get] at h
      simp only [Record.set, Record.get]
      exact ihi _ _ _ h
    | (j + 1) :: t, h =>
      simp only [Record.get] at h
      simp only [Record.set, Record.get]
      exact ihr _ _ _ h
  | other f rest ih =>
    intro p v w h
    match p, h with
    | (j + 1) :: t, h =>
      simp only [Record.get] at h
      simp only [Record.set, Record.get]
      exact ih _ _ _ h

theorem get_set_other (r : Record) : ∀ (p q : List Nat) (w : Leaf), q ≠ p →
    (r.set p w).get q = r.get q := by
  induction r with
  | done => intro p q w _; rfl
  | leaf f d x rest ih =>
    intro p q w hne
    match p, q, hne with
    | [], _, _ => rfl
    | [0], [], _ => rfl
    | [0], [0], h => exact absurd rfl h
    | [0], 0 :: _ :: _, _ => rfl
    | [0], (k + 1) :: _, _ => rfl
    | 0 :: _ :: _, _, _ => rfl
    | (j + 1) :: t, [], _ => rfl
    | (j + 1) :: t, [0], _ => rfl
    | (j + 1) :: t, 0 :: _ :: _, _ => rfl
    | (j + 1) :: t, (k + 1) :: u, h =>
      simp only [Record.set, Record.get]
      apply ih
      intro e
      apply h
      simp only [List.cons.injEq] at e ⊢
      exact ⟨by omega, e.2⟩
  | struct f inner rest ihi ihr =>
    intro p q w hne
    match p, q, hne with
    | [], _, _ => rfl
    | 0 :: t, [], _ => rfl
    | 0 :: t, 0 :: u, h =>
      simp only [Record.set, Record.get]
      apply ihi
      intro e
      exact h (by rw [e])
    | 0 :: t, (k + 1) :: u, _ => rfl
    | (j + 1) :: t, [], _ => rfl
    | (j + 1) :: t, 0 :: u, _ => rfl
    | (j + 1) :: t, (k + 1) :: u, h =>
      simp only [Record.set, Record.get]
      apply ihr
      intro e
      apply h
      simp only [List.cons.injEq] at e ⊢
      exact ⟨by omega, e.2⟩
  | other f rest ih =>
    intro p q w hne
    match p, q, hne with
    | [], _, _ => rfl
    | 0 :: t, _, _ => rfl
    | (j + 1) :: t, [], _ => rfl
    | (j + 1) :: t, 0 :: u, _ => rfl
    | (j + 1) :: t, (k + 1) :: u, h =>
      simp only [Record.set, Record.get]
      apply ih
      intro e
      apply h
      simp only [List.cons.injEq] at e ⊢
      exact ⟨by omega, e.2⟩

theorem find_of_nodup (l : List Flag) (f : Flag) (hf : f ∈ l)
    (hnd : (l.map (fun g => g.Name)).Nodup) :
    l.find? (fun g => g.Name == f.Name) = some f := by
  induction l with
  | nil => simp at hf
  | cons g l ih =>
    simp only [List.map_cons, List.nodup_cons, List.mem_map, not_exists, not_and] at hnd
    simp only [List.mem_cons] at hf
    rcases hf with rfl | hf
    · simp
    · have hne : g.Name ≠ f.Name := fun e => hnd.1 f hf e.symm
      rw [List.find?_cons_of_neg _ (by simpa using hne)]
      exact ih hf hnd.2

theorem Lookup_append (fs : FlagSet) (l : List Flag) (f : Flag) (hf : f ∈ l)
    (hnd : (l.map (fun g => g.Name)).Nodup) (hdis : f.Name ∉ fs.names) :
    FlagSet.Lookup ⟨fs.formal ++ l⟩ f.Name = some f := by
  have h0 := (Lookup_eq_none fs f.Name).2 hdis
  simp only [FlagSet.Lookup] at h0 ⊢
  rw [List.find?_append, h0, find_of_nodup l f hf hnd]
  rfl

/-! ## The binder: claims C1, C3, C6, C7, C8, C10 -/

theorem Generate_none_iff (u : Runes) (c : config) (heap : Nat → Record) (fs fs' : FlagSet)
    (a : Nat) (hc : c.data = some a) :
    Generate u c heap fs = (fs', none) ↔
      (bindable u (heap a) false = true ∧ (namesOf u (heap a) "").Nodup ∧
        (∀ n ∈ namesOf u (heap a) "", n ∉ fs.names) ∧
        fs' = ⟨fs.formal ++ flagsOf u (heap a) "" a [] 0⟩) := by
  unfold Generate
  rw [hc]
  exact parse_none_iff _ _ _ _ _ _ _ _ _

theorem flagsOf_root_cells (u : Runes) (r : Record) (a : Nat) :
    (flagsOf u r "" a [] 0).map (fun f => (f.Value, f.DefValue)) =
      (leafFields r).map (fun q => ((⟨a, q.1⟩ : Pointer), q.2)) := by
  rw [flagsOf_cells]
  apply List.map_congr_left
  intro q _
  simp only [List.nil_append]
  rw [modifyHead_zero]

/-- Claim C1, at a failing input: for `struct { A struct { B struct { C int } } }`
`Generate` registers the leaf `C` under the name "a.a.b.c", which repeats the
ancestor `a`, where the lower-cased names of `A`, `B`, `C` joined with '.' are
"a.b.c". -/
theorem Generate_nested_name_repeats_ancestor :
    Generate latin ⟨some 0⟩ (fun _ => nestedABC) ⟨[]⟩ =
        (⟨[⟨"a.a.b.c", "a.a.b.c", ⟨0, [0, 0, 0]⟩, .int 7⟩]⟩, none) ∧
      dottedPath latin ["A", "B", "C"] = "a.b.c" ∧
      "a.a.b.c" ≠ dottedPath latin ["A", "B", "C"] := by
  refine ⟨rfl, by decide, by decide⟩

/-- Claim C6, at a failing input: `Generate` on the `IntOnly` record of
`TestConfig_LoadFile` completes and leaves the flags "start" and "bool"; with
that registry, `Generate` on the `IntWithStruct` record of
`TestConfig_LoadFileComplex`, held after a successful load, panics with
`flag redefined: start` and registers nothing. -/
theorem Generate_panics_on_registered_name :
    Generate latin ⟨some 0⟩ testHeap ⟨[]⟩ = (registryAfterFirstTest, none) ∧
      Generate latin ⟨some 1⟩ testHeap registryAfterFirstTest =
        (registryAfterFirstTest, some (.redefined "start")) :=
  ⟨rfl, rfl⟩

/-- Claim C7, counterexample: on `struct { A int; B Level; C int }` with
`type Level int`, three fields of kind int, `Generate` registers the flag "a"
and panics at `B`: one registration for three leaf fields.  The same on
`struct { A int; b int; C int }`, where it panics at the unexported `b`. -/
theorem Generate_stops_at_panic :
    Generate latin ⟨some 0⟩ (fun _ => levelBetween) ⟨[]⟩ =
        (⟨[⟨"a", "a", ⟨0, [0]⟩, .int 1⟩]⟩, some .typeAssertion) ∧
      leafFields levelBetween = [([0], .int 1), ([1], .int 2), ([2], .int 3)] ∧
      ([⟨"a", "a", ⟨0, [0]⟩, .int 1⟩] : List Flag).map (fun f => (f.Value, f.DefValue.kind)) ≠
        (leafFields levelBetween).map (fun q => ((⟨0, q.1⟩ : Pointer), q.2.kind)) ∧
      Generate latin ⟨some 0⟩ (fun _ => unexportedBetween) ⟨[]⟩ =
        (⟨[⟨"a", "a", ⟨0, [0]⟩, .int 1⟩]⟩, some .unexported) ∧
      leafFields unexportedBetween = [([0], .int 1), ([1], .int 2), ([2], .int 3)] := by
  refine ⟨rfl, rfl, by decide, rfl, rfl⟩

/-- Claim C7, amended: whenever `Generate` completes on the record at `a`, the
flags it has added to the registry are, in order, one for each field of kind
string, int or bool in depth-first pre-order, bound to that field and of that
field's kind; struct fields and fields of other kinds add none. -/
theorem Generate_registers_leaf_fields_in_order (u : Runes) (c : config)
    (heap : Nat → Record) (fs fs' : FlagSet) (a : Nat) (hc : c.data = some a)
    (h : Generate u c heap fs = (fs', none)) :
    ∃ added, fs'.formal = fs.formal ++ added ∧
      added.map (fun f => (f.Value, f.DefValue.kind)) =
        (leafFields (heap a)).map (fun q => ((⟨a, q.1⟩ : Pointer), q.2.kind)) := by
  obtain ⟨_, _, _, hfs⟩ := (Generate_none_iff u c heap fs fs' a hc).1 h
  refine ⟨flagsOf u (heap a) "" a [] 0, by rw [hfs], ?_⟩
  have := congrArg (List.map (fun q : Pointer × Leaf => (q.1, q.2.kind)))
    (flagsOf_root_cells u (heap a) a)
  simpa [List.map_map, Function.comp] using this

/-- Claim C7, witness: `struct { Tags []string; Port int; Inner struct { Rate
float64; Name string } }` gets two flags, for `Port` and `Inner.Name`. -/
theorem Generate_registers_leaf_fields_in_order_witness :
    Generate latin ⟨some 0⟩ (fun _ => mixedKinds) ⟨[]⟩ =
        (⟨[⟨"port", "port", ⟨0, [1]⟩, .int 80⟩,
          ⟨"inner.name", "inner.name", ⟨0, [2, 1]⟩, .str "x"⟩]⟩, none) ∧
      leafFields mixedKinds = [([1], .int 80), ([2, 1], .str "x")] ∧
      ∃ added, (FlagSet.mk [⟨"port", "port", ⟨0, [1]⟩, .int 80⟩,
          ⟨"inner.name", "inner.name", ⟨0, [2, 1]⟩, .str "x"⟩]).formal =
          (FlagSet.mk []).formal ++ added ∧
        added.map (fun f => (f.Value, f.DefValue.kind)) =
          (leafFields mixedKinds).map (fun q => ((⟨0, q.1⟩ : Pointer), q.2.kind)) :=
  ⟨rfl, rfl,
    Generate_registers_leaf_fields_in_order latin ⟨some 0⟩ (fun _ => mixedKinds) ⟨[]⟩ _ 0
      rfl rfl⟩

/-- Claim C8: when `Generate` completes on the record at `a`, every flag it has
added has as default the value its field holds in that record at the call, and
the added flags' fields and defaults are the record's string, int and bool
fields with their current values. -/
theorem Generate_default_is_current_value (u : Runes) (c : config) (heap : Nat → Record)
    (fs fs' : FlagSet) (a : Nat) (hc : c.data = some a)
    (h : Generate u c heap fs = (fs', none)) :
    ∃ added, fs'.formal = fs.formal ++ added ∧
      added.map (fun f => (f.Value.path, f.DefValue)) = leafFields (heap a) ∧
      ∀ f ∈ added, f.Value.addr = a ∧ (heap a).get f.Value.path = some f.DefValue := by
  obtain ⟨_, _, _, hfs⟩ := (Generate_none_iff u c heap fs fs' a hc).1 h
  have hcells := flagsOf_root_cells u (heap a) a
  refine ⟨flagsOf u (heap a) "" a [] 0, by rw [hfs], ?_, ?_⟩
  · have := congrArg (List.map (fun q : Pointer × Leaf => (q.1.path, q.2))) hcells
    rw [List.map_map, List.map_map] at this
    have e : ((fun q : Pointer × Leaf => (q.1.path, q.2)) ∘
        fun q : List Nat × Leaf => ((⟨a, q.1⟩ : Pointer), q.2)) = id := by
      funext q; rfl
    rw [e, List.map_id] at this
    exact this
  · intro f hf
    have hm : (f.Value, f.DefValue) ∈
        (leafFields (heap a)).map (fun q => ((⟨a, q.1⟩ : Pointer), q.2)) := by
      rw [← hcells]
      exact List.mem_map_of_mem _ hf
    obtain ⟨q, hq, e⟩ := List.mem_map.1 hm
    have e1 := congrArg Prod.fst e
    have e2 := congrArg Prod.snd e
    simp only at e1 e2
    rw [← e1, ← e2]
    exact ⟨rfl, leafFields_get (heap a) q hq⟩

/-- Claim C8, witness: with `Start` holding 10 after the load, the flag "start"
has default 10. -/
theorem Generate_default_is_current_value_witness :
    Generate latin ⟨some 0⟩ (fun _ => IntOnly 10 false) ⟨[]⟩ =
        (⟨[⟨"start", "start", ⟨0, [0]⟩, .int 10⟩,
          ⟨"bool", "bool", ⟨0, [1]⟩, .bool false⟩]⟩, none) ∧
      ∃ added, (FlagSet.mk [⟨"start", "start", ⟨0, [0]⟩, .int 10⟩,
          ⟨"bool", "bool", ⟨0, [1]⟩, .bool false⟩]).formal = (FlagSet.mk []).formal ++ added ∧
        added.map (fun f => (f.Value.path, f.DefValue)) = leafFields (IntOnly 10 false) ∧
        ∀ f ∈ added, f.Value.addr = 0 ∧ (IntOnly 10 false).get f.Value.path = some f.DefValue :=
  ⟨rfl, Generate_default_is_current_value latin ⟨some 0⟩ (fun _ => IntOnly 10 false) ⟨[]⟩ _ 0
    rfl rfl⟩

/-- Claim C3: when `Generate` has completed on the record at `a`, setting any
flag it added to any text the flag's type parses without error succeeds,
stores the parsed value in the field of that record the flag was made for, and
leaves every other field of the record, and every other record, as it was. -/
theorem Set_writes_bound_field_only (u : Runes) (c : config) (heap : Nat → Record)
    (fs fs' : FlagSet) (a : Nat) (hc : c.data = some a)
    (h : Generate u c heap fs = (fs', none))
    (f : Flag) (hf : f ∈ fs'.formal) (hnew : f ∉ fs.formal)
    (value : Text) (hv : (value.parsed f.DefValue).2 = false) :
    ∃ heap', fs'.Set f.Name value heap = (heap', false) ∧
      f.Value.addr = a ∧ (heap a).get f.Value.path = some f.DefValue ∧
      (heap' a).get f.Value.path = some (value.parsed f.DefValue).1 ∧
      (∀ q, q ≠ f.Value.path → (heap' a).get q = (heap a).get q) ∧
      ∀ b, b ≠ a → heap' b = heap b := by
  obtain ⟨_, hnd, hdis, hfs⟩ := (Generate_none_iff u c heap fs fs' a hc).1 h
  subst hfs
  have hmem : f ∈ flagsOf u (heap a) "" a [] 0 := by
    rcases List.mem_append.1 hf with h1 | h1
    · exact absurd h1 hnew
    · exact h1
  have hname : f.Name ∈ namesOf u (heap a) "" := by
    rw [← flagsOf_names u (heap a) "" a [] 0]
    exact List.mem_map_of_mem _ hmem
  have hlook := Lookup_append fs _ f hmem (by rw [flagsOf_names]; exact hnd) (hdis _ hname)
  have hm : (f.Value, f.DefValue) ∈
      (leafFields (heap a)).map (fun q => ((⟨a, q.1⟩ : Pointer), q.2)) := by
    rw [← flagsOf_root_cells u]
    exact List.mem_map_of_mem _ hmem
  obtain ⟨q, hq, e⟩ := List.mem_map.1 hm
  have e1 := congrArg Prod.fst e
  have e2 := congrArg Prod.snd e
  simp only at e1 e2
  have haddr : f.Value.addr = a := by rw [← e1]
  have hget : (heap a).get f.Value.path = some f.DefValue := by
    rw [← e1, ← e2]; exact leafFields_get (heap a) q hq
  refine ⟨Function.update heap a ((heap a).set f.Value.path (value.parsed f.DefValue).1),
    ?_, haddr, hget, ?_, ?_, ?_⟩
  · unfold FlagSet.Set
    rw [hlook]
    simp only [hv, haddr]
  · rw [Function.update_same]
    exact get_set_same _ _ _ _ hget
  · intro q' hq'
    rw [Function.update_same]
    exact get_set_other _ _ _ _ hq'
  · intro b hb
    exact Function.update_noteq hb _ _

/-- Claim C3, witness: after `Generate` on `IntWithStruct` with 11 in both
`Start` fields, setting "end.start" to "12" puts 12 in `End.Start` and leaves
`Start` at 11. -/
theorem Set_writes_bound_field_only_witness :
    ((FlagSet.mk (flagsOf latin (IntWithStruct 11 11 false) "" 0 [] 0)).Set "end.start" twelve
        (fun _ => IntWithStruct 11 11 false)).1 0 = IntWithStruct 11 12 false ∧
    ∃ heap', (FlagSet.mk (flagsOf latin (IntWithStruct 11 11 false) "" 0 [] 0)).Set "end.start"
        twelve (fun _ => IntWithStruct 11 11 false) = (heap', false) ∧
      (Flag.mk "end.start" "end.start" ⟨0, [1, 0]⟩ (.int 11)).Value.addr = 0 ∧
      (IntWithStruct 11 11 false).get [1, 0] = some (.int 11) ∧
      (heap' 0).get [1, 0] = some (.int 12) ∧
      (∀ q, q ≠ [1, 0] → (heap' 0).get q = (IntWithStruct 11 11 false).get q) ∧
      ∀ b, b ≠ 0 → heap' b = IntWithStruct 11 11 false :=
  ⟨rfl, Set_writes_bound_field_only latin ⟨some 0⟩ (fun _ => IntWithStruct 11 11 false) ⟨[]⟩
    ⟨flagsOf latin (IntWithStruct 11 11 false) "" 0 [] 0⟩ 0 rfl rfl
    ⟨"end.start", "end.start", ⟨0, [1, 0]⟩, .int 11⟩ (by decide) (by decide) twelve rfl⟩

/-- Claim C10: when the field names of the record at `a` are non-empty and
free of '.', and the fields of each struct have pairwise distinct lower-cased
names, the names `parse` derives for the string, int and bool fields are
pairwise distinct; `Generate` from an empty registry never panics with
`flag redefined`; the names it registers are the leading ones of those names,
all of them when it completes; and it completes when no such field is of a
defined type or unexported. -/
theorem parse_names_distinct (u : Runes) (hu : u.Lawful) (c : config) (heap : Nat → Record)
    (a : Nat) (hc : c.data = some a) (hv : validNames (heap a) = true)
    (hd : distinctSiblings u (heap a) = true) :
    (namesOf u (heap a) "").Nodup ∧
      (∀ n, (Generate u c heap ⟨[]⟩).2 ≠ some (.redefined n)) ∧
      (Generate u c heap ⟨[]⟩).1.names <+: namesOf u (heap a) "" ∧
      ((Generate u c heap ⟨[]⟩).2 = none →
        (Generate u c heap ⟨[]⟩).1.names = namesOf u (heap a) "") ∧
      (bindable u (heap a) false = true → (Generate u c heap ⟨[]⟩).2 = none) := by
  have hnd := namesOf_nodup u hu (heap a) "" hv hd
  have hG : Generate u c heap ⟨[]⟩ = parse u (heap a) "" false a [] 0 ⟨[]⟩ := by
    unfold Generate; rw [hc]
  refine ⟨hnd, ?_, ?_, ?_, ?_⟩
  · intro n
    rw [hG]
    exact parse_not_redefined u _ _ _ _ _ _ _ n hnd (fun m _ => by simp [FlagSet.names])
  · rw [hG]
    obtain ⟨l, hl, e⟩ := parse_prefix u (heap a) "" false a [] 0 ⟨[]⟩
    rw [e, ← flagsOf_names u (heap a) "" a [] 0]
    simp only [FlagSet.names, List.nil_append]
    exact hl.map _
  · intro h
    have h2 : Generate u c heap ⟨[]⟩ = ((Generate u c heap ⟨[]⟩).1, none) := by
      rw [← h]
    obtain ⟨_, _, _, hfs⟩ := (Generate_none_iff u c heap ⟨[]⟩ _ a hc).1 h2
    rw [hfs]
    simp only [FlagSet.names, List.nil_append]
    exact flagsOf_names _ _ _ _ _ _
  · intro hb
    have := (Generate_none_iff u c heap ⟨[]⟩ _ a hc).2
      ⟨hb, hnd, fun m _ => by simp [FlagSet.names], rfl⟩
    rw [this]

/-- Claim C10, witness: the six names derived for `struct { Start int; End
struct { Start int; Bool bool }; Deep struct { End struct { Start int; École
string }; Start int } }`, all registered. -/
theorem parse_names_distinct_witness :
    (validNames manyLeaves = true ∧ distinctSiblings latin manyLeaves = true) ∧
      (Generate latin ⟨some 0⟩ (fun _ => manyLeaves) ⟨[]⟩).1.names =
        ["start", "end.start", "end.bool", "deep.deep.end.start", "deep.deep.end.école",
          "deep.start"] ∧
      ((namesOf latin manyLeaves "").Nodup ∧
        (∀ n, (Generate latin ⟨some 0⟩ (fun _ => manyLeaves) ⟨[]⟩).2 ≠ some (.redefined n)) ∧
        (Generate latin ⟨some 0⟩ (fun _ => manyLeaves) ⟨[]⟩).1.names <+:
          namesOf latin manyLeaves "" ∧
        ((Generate latin ⟨some 0⟩ (fun _ => manyLeaves) ⟨[]⟩).2 = none →
          (Generate latin ⟨some 0⟩ (fun _ => manyLeaves) ⟨[]⟩).1.names =
            namesOf latin manyLeaves "") ∧
        (bindable latin manyLeaves false = true →
          (Generate latin ⟨some 0⟩ (fun _ => manyLeaves) ⟨[]⟩).2 = none)) :=
  ⟨⟨by decide, by decide⟩, by decide,
    parse_names_distinct latin latin_lawful ⟨some 0⟩ (fun _ => manyLeaves) 0 rfl
      (by decide) (by decide)⟩

/-! ## The loaders: claims C2, C4, C5, C9 -/

theorem readAndParse_file {α β : Type} (jd yd : Decoder α β) (os : String → OpenResult β)
    (path : String) (encoding : FileEncoding) (data : Nat) (heap : Nat → α) (g : β)
    (h : os path = .file g) :
    readAndParse jd yd os path encoding data heap =
      ((decode jd yd g encoding data heap).1,
        Wrap (decode jd yd g encoding data heap).2 ("解析配置文件" ++ path)) := by
  unfold readAndParse
  rw [h]
  simp only
  rcases decode jd yd g encoding data heap with ⟨h1, _ | e⟩ <;> rfl

theorem readAndParse_failed {α β : Type} (jd yd : Decoder α β) (os : String → OpenResult β)
    (path : String) (encoding : FileEncoding) (data : Nat) (heap : Nat → α) (ne : Bool)
    (h : os path = .failed ne) :
    readAndParse jd yd os path encoding data heap =
      (heap, some (if ne then .pathError true else
        .wrapped ("打开配置文件" ++ path) (.pathError false))) := by
  unfold readAndParse
  rw [h]
  cases ne <;> rfl

theorem decode_ok {α β : Type} (jd yd : Decoder α β) (b : β) (encoding : FileEncoding)
    (data : Nat) (heap : Nat → α) (h : (decode jd yd b encoding data heap).2 = none) :
    (decode jd yd b encoding data heap).1 = Function.update heap data (jd b (heap data)).1 ∧
        (jd b (heap data)).2 = none ∨
      (decode jd yd b encoding data heap).1 = Function.update heap data (yd b (heap data)).1 ∧
        (yd b (heap data)).2 = none := by
  unfold decode at h ⊢
  by_cases hj : encoding = JSON
  · rw [if_pos hj] at h ⊢
    rcases hjd : jd b (heap data) with ⟨d, _ | e⟩
    · rw [hjd] at h; exact Or.inl ⟨rfl, rfl⟩
    · rw [hjd] at h; simp [Wrap] at h
  · rw [if_neg hj] at h ⊢
    by_cases hy : encoding = YAML
    · rw [if_pos hy] at h ⊢
      rcases hyd : yd b (heap data) with ⟨d, _ | e⟩
      · rw [hyd] at h; exact Or.inr ⟨rfl, rfl⟩
      · rw [hyd] at h; simp [Wrap] at h
    · rw [if_neg hy] at h
      simp at h

/-- Claim C2, on the code: whenever the envelope decodes and its error code is
not zero, `LoadFromServer` returns the nil error: `errors.Wrap` of the nil
`err` of the successful decode is nil, so the envelope's message is lost. -/
theorem LoadFromServer_error_code_returns_nil {α β : Type} (jd yd : Decoder α β)
    (get : String → GetResult β) (c : config) (url key : String) (data : Nat)
    (heap : Nat → α) (respData : Response β)
    (hget : get (url ++ "/" ++ key) = .envelope respData) (hcode : respData.ErrorCode ≠ 0) :
    (LoadFromServer jd yd get c url key data heap).1 = none := by
  unfold LoadFromServer
  rw [hget]
  simp only
  rw [if_pos hcode]
  rfl

/-- Claim C2, failing input: the envelope `errorCode: 1, error: "not found"`
makes `LoadFromServer` return nil. -/
theorem LoadFromServer_error_code_returns_nil_witness :
    notFoundServer ("http://localhost:1234" ++ "/" ++ "1") =
        .envelope ⟨1, "not found", ⟨.JSON, "\x7b\"Start\":10\x7d"⟩⟩ ∧
      (1 : Int) ≠ 0 ∧
      (LoadFromServer storeTen storeTen notFoundServer ⟨none⟩ "http://localhost:1234" "1" 0
        (fun _ => IntOnly 0 false)).1 = none :=
  ⟨rfl, by decide,
    LoadFromServer_error_code_returns_nil storeTen storeTen notFoundServer ⟨none⟩
      "http://localhost:1234" "1" 0 (fun _ => IntOnly 0 false) _ rfl (by decide)⟩

/-- Claim C9: whenever the envelope's error code is not zero, whatever payload
and format tag it carries, `LoadFromServer` leaves the heap, and so every field
of the caller's record, as it was, and leaves the manager holding what it held. -/
theorem LoadFromServer_error_code_leaves_target {α β : Type} (jd yd : Decoder α β)
    (get : String → GetResult β) (c : config) (url key : String) (data : Nat)
    (heap : Nat → α) (respData : Response β)
    (hget : get (url ++ "/" ++ key) = .envelope respData) (hcode : respData.ErrorCode ≠ 0) :
    (LoadFromServer jd yd get c url key data heap).2.2 = heap ∧
      (LoadFromServer jd yd get c url key data heap).2.1 = c := by
  unfold LoadFromServer
  rw [hget]
  simp only
  rw [if_pos hcode]
  exact ⟨rfl, rfl⟩

/-- Claim C9, witness: the envelope of scenario C carries a payload that would
store 10; the record still holds 0 and the manager still holds nothing. -/
theorem LoadFromServer_error_code_leaves_target_witness :
    notFoundServer ("http://localhost:1234" ++ "/" ++ "1") =
        .envelope ⟨1, "not found", ⟨.JSON, "\x7b\"Start\":10\x7d"⟩⟩ ∧
      (1 : Int) ≠ 0 ∧
      ((LoadFromServer storeTen storeTen notFoundServer ⟨none⟩ "http://localhost:1234" "1" 0
          (fun _ => IntOnly 0 false)).2.2 = (fun _ => IntOnly 0 false) ∧
        (LoadFromServer storeTen storeTen notFoundServer ⟨none⟩ "http://localhost:1234" "1" 0
          (fun _ => IntOnly 0 false)).2.1 = ⟨none⟩) :=
  ⟨rfl, by decide,
    LoadFromServer_error_code_leaves_target storeTen storeTen notFoundServer ⟨none⟩
      "http://localhost:1234" "1" 0 (fun _ => IntOnly 0 false) _ rfl (by decide)⟩

theorem LoadFile_result {α β : Type} (jd yd : Decoder α β) (os : String → OpenResult β)
    (c : config) (path localPath : String) (encoding : FileEncoding) (data : Nat)
    (heap : Nat → α) :
    LoadFile jd yd os c path localPath encoding data heap =
      match (readAndParse jd yd os path encoding data heap).2 with
      | some err => (some err, c, (readAndParse jd yd os path encoding data heap).1)
      | none =>
        if localPath ≠ "" then
          match (readAndParse jd yd os localPath encoding data
              (readAndParse jd yd os path encoding data heap).1).2 with
          | some err =>
            if isPathError err then (none, ⟨some data⟩, (readAndParse jd yd os localPath encoding
              data (readAndParse jd yd os path encoding data heap).1).1)
            else (some err, c, (readAndParse jd yd os localPath encoding
              data (readAndParse jd yd os path encoding data heap).1).1)
          | none => (none, ⟨some data⟩, (readAndParse jd yd os localPath encoding
              data (readAndParse jd yd os path encoding data heap).1).1)
        else (none, ⟨some data⟩, (readAndParse jd yd os path encoding data heap).1) := by
  unfold LoadFile
  rcases readAndParse jd yd os path encoding data heap with ⟨h1, _ | e⟩
  · simp only
    split
    · rcases readAndParse jd yd os localPath encoding data h1 with ⟨h2, _ | e2⟩
      · rfl
      · rfl
    · rfl
  · rfl

/-- Claim C5: `LoadFile` returns an error exactly when the global file fails
to open (for any reason) or its decode fails, or `localPath` is not empty and
the local file fails to open for a reason other than not-found or opens and
its decode (into the record as the global decode left it) fails.  So a missing
global file always fails it, and a missing local file does not once the global
file has loaded. -/
theorem LoadFile_error_iff {α β : Type} (jd yd : Decoder α β) (os : String → OpenResult β)
    (c : config) (path localPath : String) (encoding : FileEncoding) (data : Nat)
    (heap : Nat → α) :
    ((LoadFile jd yd os c path localPath encoding data heap).1 ≠ none ↔
      ((∃ ne, os path = .failed ne) ∨
        (∃ g, os path = .file g ∧ (decode jd yd g encoding data heap).2 ≠ none)) ∨
      (localPath ≠ "" ∧
        (os localPath = .failed false ∨
          ∃ l, os localPath = .file l ∧
            (decode jd yd l encoding data
              (readAndParse jd yd os path encoding data heap).1).2 ≠ none))) ∧
    (os path = .failed true →
      (LoadFile jd yd os c path localPath encoding data heap).1 ≠ none) ∧
    ((readAndParse jd yd os path encoding data heap).2 = none →
      os localPath = .failed true →
      (LoadFile jd yd os c path localPath encoding data heap).1 = none) := by
  have key : (LoadFile jd yd os c path localPath encoding data heap).1 ≠ none ↔
      ((∃ ne, os path = .failed ne) ∨
        (∃ g, os path = .file g ∧ (decode jd yd g encoding data heap).2 ≠ none)) ∨
      (localPath ≠ "" ∧
        (os localPath = .failed false ∨
          ∃ l, os localPath = .file l ∧
            (decode jd yd l encoding data
              (readAndParse jd yd os path encoding data heap).1).2 ≠ none)) := by
    rw [LoadFile_result]
    cases hp : os path with
    | failed ne =>
      rw [readAndParse_failed jd yd os path encoding data heap ne hp]
      simp
    | file g =>
      rw [readAndParse_file jd yd os path encoding data heap g hp]
      cases hd : (decode jd yd g encoding data heap).2 with
      | some e => simp [Wrap, hd]
      | none =>
        simp only [Wrap]
        by_cases hl : localPath = ""
        · simp [hl, hd]
        · simp only [ne_eq, hl, not_false_eq_true, if_true, reduceCtorEq, exists_false,
            OpenResult.file.injEq, false_or, true_and]
          cases hlp : os localPath with
          | failed ne =>
            rw [readAndParse_failed jd yd os localPath encoding data _ ne hlp]
            cases ne <;> simp [isPathError, hd]
          | file l =>
            rw [readAndParse_file jd yd os localPath encoding data _ l hlp]
            cases hd2 : (decode jd yd l encoding data
                (decode jd yd g encoding data heap).1).2 with
            | some e => simp [Wrap, isPathError, hd2, hd]
            | none => simp [Wrap, hd2, hd]
  refine ⟨key, ?_, ?_⟩
  · intro hp
    exact key.2 (Or.inl (Or.inl ⟨true, hp⟩))
  · intro hg hl
    rw [LoadFile_result, hg]
    simp only
    split
    · rw [readAndParse_failed jd yd os localPath encoding data _ true hl]
      rfl
    · rfl

theorem decode_presence {K V β : Type} (jd yd : Decoder (K → V) β) (fields : β → K → Option V)
    (hj : ∀ b t, (jd b t).2 = none → ∀ k, (jd b t).1 k = (fields b k).getD (t k))
    (hy : ∀ b t, (yd b t).2 = none → ∀ k, (yd b t).1 k = (fields b k).getD (t k))
    (b : β) (encoding : FileEncoding) (data : Nat) (heap : Nat → K → V)
    (h : (decode jd yd b encoding data heap).2 = none) (k : K) :
    (decode jd yd b encoding data heap).1 data k = (fields b k).getD (heap data k) := by
  rcases decode_ok jd yd b encoding data heap h with ⟨e, hn⟩ | ⟨e, hn⟩
  · rw [e, Function.update_same]; exact hj b _ hn k
  · rw [e, Function.update_same]; exact hy b _ hn k

/-- Claim C4: with decoders that overwrite by presence, a `LoadFile` that
succeeds with a non-empty `localPath` whose file exists has opened the global
file too, holds the caller's pointer, and leaves each field of the record with
the local payload's value when the local payload has the field, else with the
global payload's value when the global payload has it, else with the value it
had before the call. -/
theorem LoadFile_local_over_global {K V β : Type} (jd yd : Decoder (K → V) β)
    (fields : β → K → Option V)
    (hj : ∀ b t, (jd b t).2 = none → ∀ k, (jd b t).1 k = (fields b k).getD (t k))
    (hy : ∀ b t, (yd b t).2 = none → ∀ k, (yd b t).1 k = (fields b k).getD (t k))
    (os : String → OpenResult β) (c : config) (path localPath : String)
    (encoding : FileEncoding) (data : Nat) (heap : Nat → K → V) (l : β)
    (hne : localPath ≠ "") (hl : os localPath = .file l)
    (hload : (LoadFile jd yd os c path localPath encoding data heap).1 = none) :
    ∃ g, os path = .file g ∧
      (LoadFile jd yd os c path localPath encoding data heap).2.1 = ⟨some data⟩ ∧
      ∀ k, (LoadFile jd yd os c path localPath encoding data heap).2.2 data k =
        layered (fields l k) (fields g k) (heap data k) := by
  rw [LoadFile_result] at hload ⊢
  cases hp : os path with
  | failed ne =>
    rw [readAndParse_failed jd yd os path encoding data heap ne hp] at hload
    simp at hload
  | file g =>
    rw [readAndParse_file jd yd os path encoding data heap g hp] at hload ⊢
    cases hd : (decode jd yd g encoding data heap).2 with
    | some e => rw [hd] at hload; simp [Wrap] at hload
    | none =>
      rw [hd] at hload
      simp only [Wrap, ne_eq, hne, not_false_eq_true, if_true] at hload ⊢
      rw [readAndParse_file jd yd os localPath encoding data _ l hl] at hload ⊢
      cases hd2 : (decode jd yd l encoding data (decode jd yd g encoding data heap).1).2 with
      | some e => rw [hd2] at hload; simp [Wrap, isPathError] at hload
      | none =>
        refine ⟨g, rfl, ?_, ?_⟩
        · simp only [hd2, Wrap]
        · intro k
          simp only [hd2, Wrap]
          rw [decode_presence jd yd fields hj hy l encoding data _ hd2 k,
            decode_presence jd yd fields hj hy g encoding data _ hd k]
          cases fields l k <;> cases fields g k <;> rfl

/-- Claim C4, witness: the files of `TestConfig_LoadFile`, global `Start` 10 and local
`Start` 11, leave `Start` at 11 and the field `Bool`, in neither file, at its
prior value 0. -/
theorem LoadFile_local_over_global_witness :
    ("local.json" ≠ "" ∧
      (LoadFile overwriteByPresence overwriteByPresence testFiles ⟨none⟩ "global.json"
        "local.json" JSON 0 (fun _ _ => (0 : Int))).1 = none) ∧
    (LoadFile overwriteByPresence overwriteByPresence testFiles ⟨none⟩ "global.json"
        "local.json" JSON 0 (fun _ _ => (0 : Int))).2.2 0 "Start" = 11 ∧
    (LoadFile overwriteByPresence overwriteByPresence testFiles ⟨none⟩ "global.json"
        "local.json" JSON 0 (fun _ _ => (0 : Int))).2.2 0 "Bool" = 0 ∧
    ∃ g, testFiles "global.json" = .file g ∧
      (LoadFile overwriteByPresence overwriteByPresence testFiles ⟨none⟩ "global.json"
        "local.json" JSON 0 (fun _ _ => (0 : Int))).2.1 = ⟨some 0⟩ ∧
      ∀ k, (LoadFile overwriteByPresence overwriteByPresence testFiles ⟨none⟩ "global.json"
          "local.json" JSON 0 (fun _ _ => (0 : Int))).2.2 0 k =
        layered (presentIn (some (fun k => if k = "Start" then some (11 : Int) else none)) k)
          (presentIn g k) 0 :=
  ⟨⟨by decide, rfl⟩, rfl, rfl,
    LoadFile_local_over_global overwriteByPresence overwriteByPresence presentIn
      (fun b t h k => by cases b with
        | none => simp [overwriteByPresence] at h
        | some p => rfl)
      (fun b t h k => by cases b with
        | none => simp [overwriteByPresence] at h
        | some p => rfl)
      testFiles ⟨none⟩ "global.json" "local.json" JSON 0 (fun _ _ => (0 : Int))
      (some (fun k => if k = "Start" then some (11 : Int) else none)) (by decide) rfl rfl⟩

end Config
